import Mathlib

/-!
Verification of the request-resolution pipeline of `node/serve-here.js`, the
static file server of the dot-scripts repository.

The JavaScript handler (function `createServer`, lines 240-303 of the source)
is embedded shallowly:

* strings are Lean `String`s, manipulated through their `List Char` data;
* the filesystem is an abstract record of query functions (`FS`), since the
  real filesystem is an external collaborator of the component; each fallible
  call returns `Except FsErr _` mirroring Node's errback/exception results;
* `decodeURIComponent` is modelled as a partial percent-decoder (`none`
  models the `URIError` throw);
* Node's `path.join` / `path.normalize` / `path.dirname` / `path.extname`
  (POSIX flavour) are reimplemented segment-by-segment after the Node
  sources;
* the generated directory-listing HTML page is represented by the data that
  fills its template holes (`ListingPage`): the surrounding fixed markup
  carries no information.

An uncaught JavaScript exception is a `HandlerError` result: the handler type
is `Except HandlerError Response`, so an `.error` value means the exception
crossed the component boundary (crashing the process) instead of producing an
HTTP response.
-/

namespace ServeHere

/-! ### Character-list utilities (JS string primitives) -/

/-- Boolean test that `pre` is a leading run of `l` (helper for `chHasSub`). -/
def chIsPre : List Char → List Char → Bool
  | [], _ => true
  | _ :: _, [] => false
  | a :: as, b :: bs => a = b && chIsPre as bs

/-- JS `String.prototype.includes`: `sub` occurs contiguously inside `l`. -/
def chHasSub (sub : List Char) : List Char → Bool
  | [] => chIsPre sub []
  | c :: cs => chIsPre sub (c :: cs) || chHasSub sub cs

/-- JS `s.includes(sub)` on Lean strings. -/
def jsIncludes (s sub : String) : Bool := chHasSub sub.data s.data

/-- Split a character list at every occurrence of `sep` (the chunks, in
order; an empty list yields the single empty chunk, as JS `split` does). -/
def chSplit (sep : Char) : List Char → List (List Char)
  | [] => [[]]
  | c :: cs =>
    if c = sep then [] :: chSplit sep cs
    else
      match chSplit sep cs with
      | r :: rs => (c :: r) :: rs
      | [] => [[c]]

/-- Join segments with `'/'` (inverse of `chSplit '/'` on slash-free chunks). -/
def joinSegs : List (List Char) → List Char
  | [] => []
  | [s] => s
  | s :: rest => s ++ '/' :: joinSegs rest

/-! ### URL decoding

The handler's first step is `decodeURIComponent(req.url.split('?')[0])`. -/

/-- Value of a hexadecimal digit, `none` for non-hex characters. -/
def hexVal (c : Char) : Option Nat :=
  if '0' ≤ c ∧ c ≤ '9' then some (c.toNat - '0'.toNat)
  else if 'a' ≤ c ∧ c ≤ 'f' then some (c.toNat - 'a'.toNat + 10)
  else if 'A' ≤ c ∧ c ≤ 'F' then some (c.toNat - 'A'.toNat + 10)
  else none

/-- Percent-decoding of a character list. A `'%'` that is not followed by two
hexadecimal digits fails (models the `URIError` throw). Each decoded byte is
kept as a single character; the UTF-8 re-validation that the JS builtin
additionally performs on multi-byte escape sequences is not modelled (the
model is more permissive there; no claim depends on it, and every input used
in a theorem below is treated identically by both). -/
def percentDecode : List Char → Option (List Char)
  | [] => some []
  | '%' :: h1 :: h2 :: rest =>
    match hexVal h1, hexVal h2 with
    | some a, some b => (percentDecode rest).map (Char.ofNat (16 * a + b) :: ·)
    | _, _ => none
  | ['%'] => none
  | ['%', _] => none
  | c :: rest => (percentDecode rest).map (c :: ·)

/-- JS `decodeURIComponent`, with `none` in place of the `URIError` throw. -/
def decodeURIComponent (s : String) : Option String :=
  (percentDecode s.data).map (fun l => ⟨l⟩)

/-- JS `req.url.split('?')[0]`: everything before the first `'?'`. -/
def stripQuery (s : String) : String := ⟨s.data.takeWhile (· ≠ '?')⟩

/-! ### POSIX path functions (Node `path` module)

Reimplemented after Node's `lib/path.js` (posix branch), which the server
relies on for `path.join`, `path.dirname` and `path.extname`. -/

/-- One step of Node's `normalizeString`: fold a raw segment onto the stack of
kept segments (stored in reverse). `""` and `"."` are dropped; `".."` pops the
last kept segment, or is itself kept when `allowAbove` (relative paths) and
nothing is left to pop; plain segments are pushed. -/
def normStep (allowAbove : Bool) (acc : List (List Char)) (s : List Char) :
    List (List Char) :=
  if s = [] ∨ s = ['.'] then acc
  else if s = ['.', '.'] then
    match acc with
    | [] => if allowAbove then [['.', '.']] else []
    | t :: ts =>
      if t = ['.', '.'] then (if allowAbove then s :: acc else acc) else ts
  else s :: acc

/-- Node `normalizeString`: process all raw segments, in order. -/
def normRun (allowAbove : Bool) (segs : List (List Char)) : List (List Char) :=
  (segs.foldl (normStep allowAbove) []).reverse

/-- Raw segments that `normStep` keeps (neither empty nor `"."`). -/
def segKeep (s : List Char) : Bool := decide (s ≠ [] ∧ s ≠ ['.'])

/-- Segments produced by the absolute-path normalization: non-empty, not a
dot segment, and separator-free. -/
def CleanSeg (s : List Char) : Prop :=
  s ≠ [] ∧ s ≠ ['.'] ∧ s ≠ ['.', '.'] ∧ '/' ∉ s

/-- Normalized segment list of an absolute path string: the spec's notion of
which directory entry a path denotes. -/
def normAbsSegs (s : String) : List (List Char) :=
  normRun false (chSplit '/' s.data)

/-- Spec-side definition (section 3 of the spec): `p` is a descendant of, or
equal to, `root` — `root`'s normalized segments are a prefix of `p`'s. -/
def IsDescendant (root p : String) : Prop :=
  ∃ rest, normAbsSegs p = normAbsSegs root ++ rest

/-- Node `path.posix.normalize` on a character list: resolve `"."`/`".."`
segments and duplicate separators, preserving absoluteness and a trailing
separator. -/
def pathNormalizeL (l : List Char) : List Char :=
  if l = [] then ['.']
  else
    let isAbs := l.head? = some '/'
    let trail := l.getLast? = some '/'
    let segs := normRun (!isAbs) (chSplit '/' l)
    let core := joinSegs segs
    if core = [] then
      if isAbs then ['/'] else if trail then ['.', '/'] else ['.']
    else
      (if isAbs then '/' :: core else core) ++ if trail then ['/'] else []

/-- Node `path.posix.join` restricted to two arguments, as the server uses
it: non-empty parts are joined with `'/'` and the result is normalized. -/
def pathJoin (a b : String) : String :=
  match ([a.data, b.data].filter (fun l => l ≠ [])) with
  | [] => "."
  | parts => ⟨pathNormalizeL (joinSegs parts)⟩

/-- Scan of Node `path.posix.dirname`: walking indices `i, i-1, …, 1` of `l`,
find the rightmost `'/'` that has a non-`'/'` character somewhere to its
right (index 0 is never examined). -/
def dirnameLoop (l : List Char) : Nat → Bool → Option Nat
  | 0, _ => none
  | i + 1, matched =>
    if l.getD (i + 1) ' ' = '/' then
      if matched then dirnameLoop l i matched else some (i + 1)
    else dirnameLoop l i false

/-- Node `path.posix.dirname`. -/
def pathDirname (s : String) : String :=
  let l := s.data
  if l = [] then "."
  else
    let hasRoot := l.head? = some '/'
    match dirnameLoop l (l.length - 1) true with
    | none => if hasRoot then "/" else "."
    | some e => if hasRoot ∧ e = 1 then "//" else ⟨l.take e⟩

/-- Index of the last `'.'` in a character list, if any. -/
def lastDotIdx (l : List Char) : Option Nat :=
  (l.reverse.findIdx? (· = '.')).map (fun j => l.length - 1 - j)

/-- Node `path.posix.extname`: the substring of the basename (trailing
separators stripped) from its last `'.'` onward; empty when the basename has
no dot, when its only leading character is that dot (dot-files), or when the
basename is exactly `".."`. -/
def pathExtname (s : String) : String :=
  let noTrail := (s.data.reverse.dropWhile (· = '/')).reverse
  let base := (chSplit '/' noTrail).getLastD []
  if base = ['.', '.'] then ""
  else
    match lastDotIdx base with
    | none => ""
    | some 0 => ""
    | some j => ⟨base.drop j⟩

/-- JS `String.prototype.toLowerCase`, modelled on the basic-latin range (the
only characters occurring in the extension table; `Char.toLower` is exactly
the A-Z/a-z case map the server's lookups rely on). -/
def toLowerStr (s : String) : String := ⟨s.data.map Char.toLower⟩

/-! ### MIME table (source lines 19-42) -/

/-- The fixed extension → content-type table `MIME_TYPES` of the source. -/
def MIME_TYPES : List (String × String) :=
  [(".html", "text/html"),
   (".css", "text/css"),
   (".js", "text/javascript"),
   (".json", "application/json"),
   (".png", "image/png"),
   (".jpg", "image/jpeg"),
   (".jpeg", "image/jpeg"),
   (".gif", "image/gif"),
   (".svg", "image/svg+xml"),
   (".ico", "image/x-icon"),
   (".webp", "image/webp"),
   (".mp4", "video/mp4"),
   (".webm", "video/webm"),
   (".mp3", "audio/mpeg"),
   (".wav", "audio/wav"),
   (".pdf", "application/pdf"),
   (".txt", "text/plain"),
   (".xml", "application/xml"),
   (".woff", "font/woff"),
   (".woff2", "font/woff2"),
   (".ttf", "font/ttf"),
   (".md", "text/markdown")]

/-- Source lines 286-287: `MIME_TYPES[path.extname(p).toLowerCase()] ||
'application/octet-stream'`. -/
def contentTypeFor (ext : String) : String :=
  (MIME_TYPES.lookup (toLowerStr ext)).getD "application/octet-stream"

/-! ### Filesystem model

The `fs` module is the component's external collaborator; it is modelled as a
record of query functions over path strings. `FsErr` distinguishes
non-existence from other failures (Node errbacks carry an error code; the
server never inspects it, which is what claims C2/C4 are about). `fs.stat`
(asynchronous, in the handler) and `fs.statSync` (in the listing generator)
query the same filesystem, hence share the `stat` field. -/

/-- Failure cause of a filesystem call. -/
inductive FsErr
  | enoent
  | eacces
  | eio
deriving DecidableEq

/-- The slice of Node `fs.Stats` the server reads. -/
structure Stats where
  isDirectory : Bool
  size : Nat
  mtime : Nat
deriving DecidableEq

/-- Abstract filesystem: one query function per `fs` call the server makes. -/
structure FS where
  stat : String → Except FsErr Stats
  existsSync : String → Bool
  readFile : String → Except FsErr (List Nat)
  readdirSync : String → Except FsErr (List String)

deriving instance DecidableEq for Except

/-! ### Directory listing (source lines 97-217) -/

/-- Fuel-bounded floor logarithm (`logAux b fuel n`). -/
def logAux (b : Nat) : Nat → Nat → Nat
  | 0, _ => 0
  | fuel + 1, n => if 1 < b ∧ b ≤ n then logAux b fuel (n / b) + 1 else 0

/-- Floor of `log_b n` for `n ≥ 1`. -/
def logFloor (b n : Nat) : Nat := logAux b n n

/-- Decimal rendering of `r / 100` with up to two fractional digits and
trailing zeros dropped, as JS number-to-string printing produces. -/
def hundredthsRepr (r : Nat) : String :=
  let intPart := (Nat.toDigits 10 (r / 100)).asString
  let frac := r % 100
  if frac = 0 then intPart
  else if frac % 10 = 0 then
    intPart ++ "." ++ (Nat.toDigits 10 (frac / 10)).asString
  else if frac < 10 then
    intPart ++ ".0" ++ (Nat.toDigits 10 frac).asString
  else intPart ++ "." ++ (Nat.toDigits 10 frac).asString

/-- Source `formatBytes` (lines 211-217). The JS computes
`Math.floor(Math.log(bytes)/Math.log(1024))` and a half-up rounding to two
decimal places in IEEE doubles; this model uses exact natural arithmetic for
the same quantities (claims do not depend on this field's value). An index
past `sizes` renders the JS string `"undefined"`. -/
def formatBytes (bytes : Nat) : String :=
  if bytes = 0 then "0 B"
  else
    let i := logFloor 1024 bytes
    let r := (bytes * 200 + 1024 ^ i) / (2 * 1024 ^ i)
    hundredthsRepr r ++ " " ++ (["B", "KB", "MB", "GB"].getD i "undefined")

/-- One row object built by the `files.map` callback (line 100-109). The
dead local `icon` of the source (computed, never stored) is omitted; the
`modified` timestamp is kept raw, its `toLocaleString` rendering being pure
presentation. -/
structure Item where
  name : String
  href : String
  isDir : Bool
  size : String
  modified : Nat
deriving DecidableEq

/-- Three-way character-code comparison of character lists (lexicographic). -/
def cmpCh : List Char → List Char → Int
  | [], [] => 0
  | [], _ :: _ => -1
  | _ :: _, [] => 1
  | a :: as, b :: bs =>
    if a < b then -1 else if b < a then 1 else cmpCh as bs

/-- JS `String.prototype.localeCompare`. The ICU default collation is
modelled as case-insensitive code-point comparison with a raw code-point
tiebreak: a total preorder that is alphabetically ascending, which is all the
sort below relies on. -/
def localeCompare (a b : String) : Int :=
  let la := a.data.map Char.toLower
  let lb := b.data.map Char.toLower
  if cmpCh la lb = 0 then cmpCh a.data b.data else cmpCh la lb

/-- The sort comparator of lines 112-116: directories first, then by name. -/
def itemCmp (a b : Item) : Int :=
  if a.isDir && !b.isDir then -1
  else if !a.isDir && b.isDir then 1
  else localeCompare a.name b.name

/-- Non-positive comparator value, the "`a` may precede `b`" relation. -/
def itemLe (a b : Item) : Bool := itemCmp a b ≤ 0

/-- `itemLe` as a relation, for the sort. -/
def itemRel (a b : Item) : Prop := itemLe a b = true

instance : DecidableRel itemRel := fun a b => by
  unfold itemRel; infer_instance

/-- Source lines 100-109: build one `Item` per readdir name, querying
`fs.statSync` for each; the first failing stat aborts the whole `map` (a
synchronous throw). JS `map` evaluates left to right. -/
def buildItems (fs : FS) (dirPath urlPath : String) :
    List String → Except FsErr (List Item)
  | [] => .ok []
  | file :: rest =>
    match fs.stat (pathJoin dirPath file) with
    | .error e => .error e
    | .ok st =>
      match buildItems fs dirPath urlPath rest with
      | .error e => .error e
      | .ok items =>
        .ok ({ name := file
               href := pathJoin urlPath file
               isDir := st.isDirectory
               size := if st.isDirectory then "-" else formatBytes st.size
               modified := st.mtime } :: items)

/-- The data filling the holes of the listing-page HTML template (lines
129-208): the request path shown in the title, the served absolute path
echoed in the `.path` paragraph, the optional synthetic parent row, and the
sorted child rows. -/
structure ListingPage where
  urlPath : String
  dirPath : String
  parent : Option String
  rows : List Item
deriving DecidableEq

/-- Source `generateDirectoryListing` (lines 97-209): readdir, stat each
child, sort with the comparator (`Array#sort` is a stable sort; for the total
preorder `itemRel` every stable sort produces the same output, here computed
by insertion sort), and synthesize the parent row unless the request path is
the root. A thrown `readdirSync`/`statSync` error propagates as `.error`. -/
def generateDirectoryListing (fs : FS) (dirPath urlPath : String) :
    Except FsErr ListingPage :=
  match fs.readdirSync dirPath with
  | .error e => .error e
  | .ok files =>
    match buildItems fs dirPath urlPath files with
    | .error e => .error e
    | .ok items =>
      .ok { urlPath := urlPath
            dirPath := dirPath
            parent := if urlPath ≠ "/" then some (pathDirname urlPath) else none
            rows := List.insertionSort itemRel items }

/-- One `<tr>` of the listing's `<tbody>`. -/
inductive RowEntry
  | parentRow (href : String)
  | itemRow (item : Item)
deriving DecidableEq

/-- Whether a row is the synthetic parent (`..`) row. -/
def RowEntry.isParent : RowEntry → Bool
  | .parentRow _ => true
  | .itemRow _ => false

/-- The `<tbody>` content: `${parent}` then `${rows}` (lines 200-203). -/
def tbodyRows (page : ListingPage) : List RowEntry :=
  (match page.parent with
   | some href => [RowEntry.parentRow href]
   | none => []) ++ page.rows.map RowEntry.itemRow

/-! ### The request handler (source lines 241-299) -/

/-- A response body: the plain-text error strings, a file's raw bytes
(`res.end(data)` with a Buffer), or the listing page. -/
inductive Body
  | text (s : String)
  | bytes (b : List Nat)
  | page (p : ListingPage)
deriving DecidableEq

/-- What `res.writeHead`/`res.end` send for one request. -/
structure Response where
  status : Nat
  contentType : String
  body : Body
deriving DecidableEq

/-- An exception that escapes the handler uncaught (no response is sent; in
Node the process crashes). -/
inductive HandlerError
  | uriError
  | fsThrow (e : FsErr)
deriving DecidableEq

/-- The handler body after the URL has been decoded successfully: the
traversal guard (lines 246-250), the join with the root (line 252), the
`fs.stat` dispatch (lines 258-299). A `generateDirectoryListing` failure is
a synchronous throw inside the `fs.stat` callback, hence `.error`. -/
def afterDecode (fs : FS) (rootDir urlPath : String) :
    Except HandlerError Response :=
  if jsIncludes urlPath ".." then
    .ok { status := 403, contentType := "text/plain", body := .text "403 Forbidden" }
  else
    let filePath := pathJoin rootDir urlPath
    match fs.stat filePath with
    | .error _ =>
      .ok { status := 404, contentType := "text/plain", body := .text "404 Not Found" }
    | .ok stats =>
      if stats.isDirectory then
        let indexPath := pathJoin filePath "index.html"
        if fs.existsSync indexPath then
          match fs.readFile indexPath with
          | .error _ =>
            .ok { status := 500, contentType := "text/plain",
                  body := .text "500 Internal Server Error" }
          | .ok data =>
            .ok { status := 200, contentType := "text/html", body := .bytes data }
        else
          match generateDirectoryListing fs filePath urlPath with
          | .error e => .error (.fsThrow e)
          | .ok page =>
            .ok { status := 200, contentType := "text/html", body := .page page }
      else
        match fs.readFile filePath with
        | .error _ =>
          .ok { status := 500, contentType := "text/plain",
                body := .text "500 Internal Server Error" }
        | .ok data =>
          .ok { status := 200, contentType := contentTypeFor (pathExtname filePath),
                body := .bytes data }

/-- The whole per-request handler (the closure passed to
`http.createServer`): strip the query string, URL-decode (a `URIError` here
is uncaught, line 243), then `afterDecode`. -/
def handleRequest (fs : FS) (rootDir url : String) :
    Except HandlerError Response :=
  match decodeURIComponent (stripQuery url) with
  | none => .error .uriError
  | some urlPath => afterDecode fs rootDir urlPath

/-! ### Concrete filesystem fixtures, used to evaluate the handler -/

/-- A filesystem on which every call fails with `ENOENT`. -/
def fsEmpty : FS where
  stat _ := .error .enoent
  existsSync _ := false
  readFile _ := .error .enoent
  readdirSync _ := .error .enoent

/-- A filesystem on which every `stat` fails with `EACCES` (permission
denied), not `ENOENT`. -/
def fsPermDenied : FS where
  stat _ := .error .eacces
  existsSync _ := false
  readFile _ := .error .eacces
  readdirSync _ := .error .eacces

/-- A filesystem holding one directory whose listing cannot be read:
`readdirSync` fails with `EACCES`. -/
def fsDirBoom : FS where
  stat _ := .ok { isDirectory := true, size := 0, mtime := 0 }
  existsSync _ := false
  readFile _ := .error .eio
  readdirSync _ := .error .eacces

/-- A filesystem with the single regular file `/srv/a.TXT` (bytes 104 105). -/
def fsOneFile : FS where
  stat p := if p = "/srv/a.TXT" then .ok { isDirectory := false, size := 2, mtime := 7 }
            else .error .enoent
  existsSync _ := false
  readFile p := if p = "/srv/a.TXT" then .ok [104, 105] else .error .enoent
  readdirSync _ := .error .enoent

/-- A filesystem with the directory `/srv/d` containing an `index.html`
(bytes 60 104 62). -/
def fsWithIndex : FS where
  stat p := if p = "/srv/d" ∨ p = "/srv/d/" then
              .ok { isDirectory := true, size := 0, mtime := 0 }
            else .error .enoent
  existsSync p := p = "/srv/d/index.html"
  readFile p := if p = "/srv/d/index.html" then .ok [60, 104, 62] else .error .enoent
  readdirSync _ := .error .enoent

/-- A filesystem with the directory `/srv/d` (no index.html) containing the
child file `banana.txt` and the child directory `Apple`. -/
def fsListDir : FS where
  stat p :=
    if p = "/srv/d" then .ok { isDirectory := true, size := 0, mtime := 0 }
    else if p = "/srv/d/banana.txt" then .ok { isDirectory := false, size := 3, mtime := 5 }
    else if p = "/srv/d/Apple" then .ok { isDirectory := true, size := 0, mtime := 6 }
    else .error .enoent
  existsSync _ := false
  readFile _ := .error .enoent
  readdirSync p := if p = "/srv/d" then .ok ["banana.txt", "Apple"] else .error .enoent

/-- A filesystem with the single regular file `/srv/notes..txt`, whose name
contains `".."`. -/
def fsDotNamed : FS where
  stat p := if p = "/srv/notes..txt" then .ok { isDirectory := false, size := 1, mtime := 0 }
            else .error .enoent
  existsSync _ := false
  readFile p := if p = "/srv/notes..txt" then .ok [33] else .error .enoent
  readdirSync _ := .error .enoent

/-! ### Lemmas: substring search and splitting -/

theorem chHasSub_of_isPre {s l : List Char} (h : chIsPre s l = true) :
    chHasSub s l = true := by
  cases l with
  | nil => simpa [chHasSub] using h
  | cons c cs => simp [chHasSub, h]

theorem chHasSub_cons {s cs : List Char} (c : Char)
    (h : chHasSub s cs = true) : chHasSub s (c :: cs) = true := by
  simp [chHasSub, h]

theorem chSplit_ne_nil (sep : Char) (l : List Char) : chSplit sep l ≠ [] := by
  cases l with
  | nil => simp [chSplit]
  | cons c cs =>
    by_cases h : c = sep
    · simp [chSplit, h]
    · simp only [chSplit, if_neg h]
      cases hr : chSplit sep cs <;> simp

theorem chSplit_head_isPre (sep : Char) :
    ∀ l r rs, chSplit sep l = r :: rs → chIsPre r l = true := by
  intro l
  induction l with
  | nil =>
    intro r rs h
    simp [chSplit] at h
    simp [h.1, chIsPre]
  | cons c cs ih =>
    intro r rs h
    by_cases hc : c = sep
    · simp [chSplit, hc] at h
      simp [h.1, chIsPre]
    · simp only [chSplit, if_neg hc] at h
      cases hr : chSplit sep cs with
      | nil => exact absurd hr (chSplit_ne_nil sep cs)
      | cons r0 rs0 =>
        rw [hr] at h
        cases h
        simp only [chIsPre]
        simp [ih _ _ hr]

theorem chHasSub_of_mem_chSplit {sep : Char} :
    ∀ {l s : List Char}, s ∈ chSplit sep l → chHasSub s l = true := by
  intro l
  induction l with
  | nil =>
    intro s h
    simp [chSplit] at h
    simp [h, chHasSub, chIsPre]
  | cons c cs ih =>
    intro s h
    by_cases hc : c = sep
    · simp [chSplit, hc] at h
      rcases h with h | h
      · subst h; simp [chHasSub, chIsPre]
      · exact chHasSub_cons c (ih h)
    · simp only [chSplit, if_neg hc] at h
      cases hr : chSplit sep cs with
      | nil => exact absurd hr (chSplit_ne_nil sep cs)
      | cons r0 rs0 =>
        rw [hr] at h
        rcases List.mem_cons.mp h with h | h
        · subst h
          refine chHasSub_of_isPre ?_
          simp [chIsPre, chSplit_head_isPre sep cs r0 rs0 hr]
        · exact chHasSub_cons c (ih (hr ▸ List.mem_cons_of_mem r0 h))

theorem chSplit_append (sep : Char) :
    ∀ a b : List Char,
      chSplit sep (a ++ sep :: b) = chSplit sep a ++ chSplit sep b := by
  intro a b
  induction a with
  | nil => simp [chSplit]
  | cons c cs ih =>
    by_cases hc : c = sep
    · simp [chSplit, hc, ih]
    · cases hr : chSplit sep cs with
      | nil => exact absurd hr (chSplit_ne_nil sep cs)
      | cons r0 rs0 =>
        simp only [List.cons_append, chSplit, if_neg hc, List.append_eq]
        rw [ih, hr]
        rfl

theorem sep_not_mem_chSplit {sep : Char} :
    ∀ {l s : List Char}, s ∈ chSplit sep l → sep ∉ s := by
  intro l
  induction l with
  | nil =>
    intro s h
    simp [chSplit] at h
    simp [h]
  | cons c cs ih =>
    intro s h
    by_cases hc : c = sep
    · simp [chSplit, hc] at h
      rcases h with h | h
      · simp [h]
      · exact ih h
    · simp only [chSplit, if_neg hc] at h
      cases hr : chSplit sep cs with
      | nil => exact absurd hr (chSplit_ne_nil sep cs)
      | cons r0 rs0 =>
        rw [hr] at h
        rcases List.mem_cons.mp h with h | h
        · subst h
          intro hm
          rcases List.mem_cons.mp hm with hm | hm
          · exact hc hm.symm
          · exact ih (hr ▸ List.mem_cons_self r0 rs0) hm
        · exact ih (hr ▸ List.mem_cons_of_mem r0 h)

theorem chSplit_of_not_mem {sep : Char} :
    ∀ {l : List Char}, sep ∉ l → chSplit sep l = [l] := by
  intro l
  induction l with
  | nil => intro _; simp [chSplit]
  | cons c cs ih =>
    intro h
    have hc : ¬c = sep := fun hcc => h (hcc ▸ List.mem_cons_self c cs)
    have hcs : sep ∉ cs := fun hm => h (List.mem_cons_of_mem c hm)
    simp only [chSplit, if_neg hc, ih hcs]

/-! ### Lemmas: segment normalization (for the containment invariant) -/

theorem foldl_normStep_no_dotdot {allow : Bool} :
    ∀ {segs : List (List Char)} (acc : List (List Char)),
      (∀ s ∈ segs, s ≠ ['.', '.']) →
      segs.foldl (normStep allow) acc = (segs.filter segKeep).reverse ++ acc := by
  intro segs
  induction segs with
  | nil => intro acc _; simp
  | cons s rest ih =>
    intro acc h
    have hs : s ≠ ['.', '.'] := h s (List.mem_cons_self s rest)
    have hrest : ∀ x ∈ rest, x ≠ ['.', '.'] :=
      fun x hx => h x (List.mem_cons_of_mem s hx)
    by_cases hdrop : s = [] ∨ s = ['.']
    · have hk : segKeep s = false := by
        simp [segKeep]
        rcases hdrop with h1 | h1 <;> simp [h1]
      simp only [List.foldl_cons, normStep, if_pos hdrop, List.filter_cons, hk]
      exact ih acc hrest
    · have hk : segKeep s = true := by
        push_neg at hdrop
        simp [segKeep, hdrop.1, hdrop.2]
      simp only [List.foldl_cons, normStep, if_neg hdrop, if_neg hs,
        List.filter_cons, hk]
      rw [ih (s :: acc) hrest]
      simp

theorem foldl_normStep_clean :
    ∀ {segs : List (List Char)} (acc : List (List Char)),
      (∀ s ∈ acc, CleanSeg s) → (∀ s ∈ segs, '/' ∉ s) →
      ∀ s ∈ segs.foldl (normStep false) acc, CleanSeg s := by
  intro segs
  induction segs with
  | nil => intro acc hacc _ s hs; exact hacc s hs
  | cons s0 rest ih =>
    intro acc hacc hfree
    have hfree0 : '/' ∉ s0 := hfree s0 (List.mem_cons_self s0 rest)
    have hfreer : ∀ x ∈ rest, '/' ∉ x :=
      fun x hx => hfree x (List.mem_cons_of_mem s0 hx)
    simp only [List.foldl_cons]
    refine ih (normStep false acc s0) ?_ hfreer
    intro x hx
    unfold normStep at hx
    by_cases h1 : s0 = [] ∨ s0 = ['.']
    · rw [if_pos h1] at hx; exact hacc x hx
    · rw [if_neg h1] at hx
      by_cases h2 : s0 = ['.', '.']
      · rw [if_pos h2] at hx
        cases hacctl : acc with
        | nil => rw [hacctl] at hx; simp at hx
        | cons t ts =>
          rw [hacctl] at hx
          by_cases h3 : t = ['.', '.']
          · have : CleanSeg t := hacc t (hacctl ▸ List.mem_cons_self t ts)
            exact absurd h3 this.2.2.1
          · simp only [h3, if_false] at hx
            exact hacc x (hacctl ▸ List.mem_cons_of_mem t hx)
      · rw [if_neg h2] at hx
        rcases List.mem_cons.mp hx with h | h
        · subst h
          push_neg at h1
          exact ⟨h1.1, h1.2, h2, hfree0⟩
        · exact hacc x h

theorem joinSegs_ne_nil :
    ∀ {segs : List (List Char)}, segs ≠ [] → (∀ s ∈ segs, s ≠ []) →
      joinSegs segs ≠ [] := by
  intro segs hne hall
  cases segs with
  | nil => exact absurd rfl hne
  | cons s rest =>
    cases rest with
    | nil => simpa [joinSegs] using hall s (by simp)
    | cons t ts =>
      have : joinSegs (s :: t :: ts) = s ++ '/' :: joinSegs (t :: ts) := rfl
      rw [this]
      simp

theorem chSplit_joinSegs :
    ∀ segs : List (List Char), segs ≠ [] → (∀ s ∈ segs, '/' ∉ s) →
      chSplit '/' (joinSegs segs) = segs := by
  intro segs
  induction segs with
  | nil => intro h; exact absurd rfl h
  | cons s rest ih =>
    intro _ hfree
    cases rest with
    | nil =>
      simpa [joinSegs] using chSplit_of_not_mem (hfree s (List.mem_cons_self s []))
    | cons t ts =>
      have : joinSegs (s :: t :: ts) = s ++ '/' :: joinSegs (t :: ts) := rfl
      rw [this, chSplit_append, chSplit_of_not_mem (hfree s (by simp)),
        ih (by simp) (fun x hx => hfree x (List.mem_cons_of_mem s hx))]
      rfl

/-- Re-splitting the rendered output of the absolute-path normalization
recovers its segments: normalization is idempotent at the segment level. -/
theorem normRun_pathNormalizeL {l : List Char} (h : l.head? = some '/') :
    normRun false (chSplit '/' (pathNormalizeL l)) =
      normRun false (chSplit '/' l) := by
  have hne : l ≠ [] := by cases l <;> simp_all
  have hclean : ∀ s ∈ normRun false (chSplit '/' l), CleanSeg s := by
    intro s hs
    unfold normRun at hs
    rw [List.mem_reverse] at hs
    exact foldl_normStep_clean [] (by simp)
      (fun x hx => sep_not_mem_chSplit hx) s hs
  have hnodd : ∀ s ∈ normRun false (chSplit '/' l), s ≠ ['.', '.'] :=
    fun s hs => (hclean s hs).2.2.1
  have hkeep : ∀ s ∈ normRun false (chSplit '/' l), segKeep s = true := by
    intro s hs
    have := hclean s hs
    simp [segKeep, this.1, this.2.1]
  have hfilter :
      (normRun false (chSplit '/' l)).filter segKeep =
        normRun false (chSplit '/' l) :=
    List.filter_eq_self.mpr hkeep
  have hresegs :
      ∀ pre : List Char,
        normRun false ([] :: chSplit '/' (joinSegs (normRun false (chSplit '/' l)) ++ pre)) =
            normRun false (chSplit '/' (joinSegs (normRun false (chSplit '/' l)) ++ pre)) := by
    intro pre
    unfold normRun
    simp [normStep]
  unfold pathNormalizeL
  rw [if_neg hne]
  simp only [h, Option.some.injEq, List.head?_eq_head, decide_True,
    Bool.not_true, if_true, eq_self_iff_true]
  by_cases hcore : joinSegs (normRun false (chSplit '/' l)) = []
  · have hsegs : normRun false (chSplit '/' l) = [] := by
      by_contra hne2
      exact joinSegs_ne_nil hne2 (fun s hs => (hclean s hs).1) hcore
    rw [if_pos hcore, hsegs]
    decide
  · rw [if_neg hcore]
    have hfree : ∀ s ∈ normRun false (chSplit '/' l), '/' ∉ s :=
      fun s hs => (hclean s hs).2.2.2
    have hsne : normRun false (chSplit '/' l) ≠ [] := by
      intro hh; rw [hh] at hcore; exact hcore rfl
    have hresplit :
        chSplit '/' (joinSegs (normRun false (chSplit '/' l))) =
          normRun false (chSplit '/' l) :=
      chSplit_joinSegs _ hsne hfree
    by_cases htr : l.getLast? = some '/'
    · rw [if_pos htr]
      have hstep : ('/' :: joinSegs (normRun false (chSplit '/' l))) ++ ['/'] =
          '/' :: (joinSegs (normRun false (chSplit '/' l)) ++ '/' :: ([] : List Char)) := by
        simp
      rw [hstep]
      have hsplit2 :
          chSplit '/' ('/' :: (joinSegs (normRun false (chSplit '/' l)) ++ '/' :: ([] : List Char))) =
            [] :: (chSplit '/' (joinSegs (normRun false (chSplit '/' l))) ++ [[]]) := by
        simp [chSplit, chSplit_append]
      rw [hsplit2, hresplit]
      unfold normRun
      rw [foldl_normStep_no_dotdot [] (by
        intro s hs
        simp only [List.mem_cons, List.mem_append] at hs
        rcases hs with h1 | h1 | h1
        · simp [h1]
        · exact hnodd s h1
        · simp at h1; simp [h1])]
      unfold normRun at hfilter
      have hk0 : segKeep ([] : List Char) = false := by decide
      simp [List.filter_append, List.filter_cons, hk0, hfilter]
    · rw [if_neg htr]
      have hstep : ('/' :: joinSegs (normRun false (chSplit '/' l))) ++ [] =
          '/' :: joinSegs (normRun false (chSplit '/' l)) := by simp
      rw [hstep]
      have hsplit2 :
          chSplit '/' ('/' :: joinSegs (normRun false (chSplit '/' l))) =
            [] :: chSplit '/' (joinSegs (normRun false (chSplit '/' l))) := by
        simp [chSplit]
      rw [hsplit2, hresplit]
      unfold normRun
      rw [foldl_normStep_no_dotdot [] (by
        intro s hs
        rcases List.mem_cons.mp hs with h1 | h1
        · simp [h1]
        · exact hnodd s h1)]
      unfold normRun at hfilter
      have hk0 : segKeep ([] : List Char) = false := by decide
      simp [List.filter_cons, hk0, hfilter]

/-! ### The containment invariant -/

theorem pathJoin_isDescendant (root p : String)
    (habs : root.data.head? = some '/')
    (hno : chHasSub ['.', '.'] p.data = false) :
    IsDescendant root (pathJoin root p) := by
  have hrne : root.data ≠ [] := by cases hd : root.data <;> simp_all
  have hpsegs : ∀ s ∈ chSplit '/' p.data, s ≠ ['.', '.'] := by
    intro s hs hdd
    rw [hdd] at hs
    rw [chHasSub_of_mem_chSplit hs] at hno
    exact Bool.true_eq_false.mp hno
  by_cases hp : p.data = []
  · have hfilt : List.filter (fun l => l ≠ []) [root.data, p.data] = [root.data] := by
      simp [hrne, hp]
    unfold pathJoin
    rw [hfilt]
    refine ⟨[], ?_⟩
    show normRun false (chSplit '/' (pathNormalizeL (joinSegs [root.data]))) =
      normAbsSegs root ++ []
    have : joinSegs [root.data] = root.data := rfl
    rw [this, normRun_pathNormalizeL habs]
    simp [normAbsSegs]
  · have hfilt : List.filter (fun l => l ≠ []) [root.data, p.data] =
        [root.data, p.data] := by
      simp [hrne, hp]
    unfold pathJoin
    rw [hfilt]
    refine ⟨(chSplit '/' p.data).filter segKeep, ?_⟩
    show normRun false (chSplit '/' (pathNormalizeL (joinSegs [root.data, p.data]))) =
      normAbsSegs root ++ (chSplit '/' p.data).filter segKeep
    have hjoin : joinSegs [root.data, p.data] = root.data ++ '/' :: p.data := rfl
    have hjhead : (root.data ++ '/' :: p.data).head? = some '/' := by
      cases hd : root.data with
      | nil => exact absurd hd hrne
      | cons c cs =>
        rw [hd] at habs
        simp at habs
        simp [habs]
    rw [hjoin, normRun_pathNormalizeL hjhead, chSplit_append]
    unfold normRun normAbsSegs
    rw [List.foldl_append, foldl_normStep_no_dotdot _ hpsegs]
    simp [normRun]

/-! ### The sort comparator is a total preorder -/

theorem cmpCh_nonpos_total : ∀ a b : List Char, cmpCh a b ≤ 0 ∨ cmpCh b a ≤ 0 := by
  intro a
  induction a with
  | nil => intro b; cases b <;> simp [cmpCh]
  | cons x xs ih =>
    intro b
    cases b with
    | nil => simp [cmpCh]
    | cons y ys =>
      by_cases hxy : x < y
      · left; simp [cmpCh, hxy]
      · by_cases hyx : y < x
        · right; simp [cmpCh, hyx, asymm hyx]
        · rcases ih ys with h | h
          · left; simpa [cmpCh, hxy, hyx] using h
          · right; simpa [cmpCh, hxy, hyx] using h

theorem cmpCh_eq_zero : ∀ {a b : List Char}, cmpCh a b = 0 → a = b := by
  intro a
  induction a with
  | nil => intro b h; cases b with
    | nil => rfl
    | cons y ys => simp [cmpCh] at h
  | cons x xs ih =>
    intro b h
    cases b with
    | nil => simp [cmpCh] at h
    | cons y ys =>
      by_cases hxy : x < y
      · simp [cmpCh, hxy] at h
      · by_cases hyx : y < x
        · simp [cmpCh, hxy, hyx] at h
        · have hx : x = y := le_antisymm (not_lt.mp hyx) (not_lt.mp hxy)
          simp only [cmpCh, if_neg hxy, if_neg hyx] at h
          rw [hx, ih h]

theorem cmpCh_trans :
    ∀ {a b c : List Char}, cmpCh a b ≤ 0 → cmpCh b c ≤ 0 → cmpCh a c ≤ 0 := by
  intro a
  induction a with
  | nil => intro b c _ _; cases c <;> simp [cmpCh]
  | cons x xs ih =>
    intro b c hab hbc
    cases b with
    | nil => simp [cmpCh] at hab
    | cons y ys =>
      cases c with
      | nil => simp [cmpCh] at hbc
      | cons z zs =>
        by_cases hxy : x < y
        · by_cases hyz : y < z
          · simp [cmpCh, lt_trans hxy hyz]
          · by_cases hzy : z < y
            · simp [cmpCh, hyz, hzy] at hbc
            · have : y = z := le_antisymm (not_lt.mp hzy) (not_lt.mp hyz)
              simp [cmpCh, this ▸ hxy]
        · by_cases hyx : y < x
          · simp [cmpCh, hxy, hyx] at hab
          · have hxyeq : x = y := le_antisymm (not_lt.mp hyx) (not_lt.mp hxy)
            by_cases hyz : y < z
            · simp [cmpCh, hxyeq ▸ hyz]
            · by_cases hzy : z < y
              · simp [cmpCh, hyz, hzy] at hbc
              · have hyzeq : y = z := le_antisymm (not_lt.mp hzy) (not_lt.mp hyz)
                have h1 : cmpCh xs ys ≤ 0 := by
                  simpa [cmpCh, hxy, hyx] using hab
                have h2 : cmpCh ys zs ≤ 0 := by
                  simpa [cmpCh, hyz, hzy] using hbc
                have hxz : ¬x < z := by rw [hxyeq, hyzeq]; exact lt_irrefl z
                have hzx : ¬z < x := by rw [hxyeq, hyzeq]; exact lt_irrefl z
                simpa [cmpCh, hxz, hzx] using ih h1 h2

theorem cmpCh_self : ∀ a : List Char, cmpCh a a = 0 := by
  intro a
  induction a with
  | nil => rfl
  | cons x xs ih => simp [cmpCh, ih]

theorem cmpCh_antisymm :
    ∀ {a b : List Char}, cmpCh a b ≤ 0 → cmpCh b a ≤ 0 → a = b := by
  intro a
  induction a with
  | nil => intro b h1 h2; cases b with
    | nil => rfl
    | cons y ys => simp [cmpCh] at h2
  | cons x xs ih =>
    intro b h1 h2
    cases b with
    | nil => simp [cmpCh] at h1
    | cons y ys =>
      by_cases hxy : x < y
      · simp [cmpCh, hxy, asymm hxy] at h2
      · by_cases hyx : y < x
        · simp [cmpCh, hxy, hyx] at h1
        · have hx : x = y := le_antisymm (not_lt.mp hyx) (not_lt.mp hxy)
          have hxs : cmpCh xs ys ≤ 0 := by simpa [cmpCh, hxy, hyx] using h1
          have hys : cmpCh ys xs ≤ 0 := by simpa [cmpCh, hxy, hyx] using h2
          rw [hx, ih hxs hys]

theorem localeCompare_total (a b : String) :
    localeCompare a b ≤ 0 ∨ localeCompare b a ≤ 0 := by
  unfold localeCompare
  by_cases h : cmpCh (a.data.map Char.toLower) (b.data.map Char.toLower) = 0
  · have h2 : cmpCh (b.data.map Char.toLower) (a.data.map Char.toLower) = 0 := by
      rw [cmpCh_eq_zero h]
      exact cmpCh_self _
    simp only [if_pos h, if_pos h2]
    exact cmpCh_nonpos_total a.data b.data
  · have h2 : ¬cmpCh (b.data.map Char.toLower) (a.data.map Char.toLower) = 0 := by
      intro hh
      exact h (by rw [cmpCh_eq_zero hh]; exact cmpCh_self _)
    simp only [if_neg h, if_neg h2]
    exact cmpCh_nonpos_total (a.data.map Char.toLower) (b.data.map Char.toLower)

theorem localeCompare_trans {a b c : String}
    (hab : localeCompare a b ≤ 0) (hbc : localeCompare b c ≤ 0) :
    localeCompare a c ≤ 0 := by
  unfold localeCompare at hab hbc ⊢
  by_cases h1 : cmpCh (a.data.map Char.toLower) (b.data.map Char.toLower) = 0
  · have he1 : a.data.map Char.toLower = b.data.map Char.toLower := cmpCh_eq_zero h1
    by_cases h2 : cmpCh (b.data.map Char.toLower) (c.data.map Char.toLower) = 0
    · have he2 : b.data.map Char.toLower = c.data.map Char.toLower := cmpCh_eq_zero h2
      have h3 : cmpCh (a.data.map Char.toLower) (c.data.map Char.toLower) = 0 := by
        rw [he1, he2]
        exact cmpCh_self _
      rw [if_pos h1] at hab
      rw [if_pos h2] at hbc
      rw [if_pos h3]
      exact cmpCh_trans hab hbc
    · have h3 : cmpCh (a.data.map Char.toLower) (c.data.map Char.toLower) =
          cmpCh (b.data.map Char.toLower) (c.data.map Char.toLower) := by rw [he1]
      rw [if_neg h2] at hbc
      rw [if_neg (h3 ▸ h2 : ¬cmpCh (a.data.map Char.toLower) (c.data.map Char.toLower) = 0)]
      rw [h3]
      exact hbc
  · by_cases h2 : cmpCh (b.data.map Char.toLower) (c.data.map Char.toLower) = 0
    · have he2 : b.data.map Char.toLower = c.data.map Char.toLower := cmpCh_eq_zero h2
      have h3 : cmpCh (a.data.map Char.toLower) (c.data.map Char.toLower) =
          cmpCh (a.data.map Char.toLower) (b.data.map Char.toLower) := by rw [he2]
      rw [if_neg h1] at hab
      rw [if_neg (by rw [h3]; exact h1 :
        ¬cmpCh (a.data.map Char.toLower) (c.data.map Char.toLower) = 0)]
      rw [h3]
      exact hab
    · rw [if_neg h1] at hab
      rw [if_neg h2] at hbc
      have h3 : cmpCh (a.data.map Char.toLower) (c.data.map Char.toLower) ≤ 0 :=
        cmpCh_trans hab hbc
      by_cases h4 : cmpCh (a.data.map Char.toLower) (c.data.map Char.toLower) = 0
      · exfalso
        have he : a.data.map Char.toLower = c.data.map Char.toLower := cmpCh_eq_zero h4
        have hba : cmpCh (b.data.map Char.toLower) (a.data.map Char.toLower) ≤ 0 :=
          he ▸ hbc
        have heq : a.data.map Char.toLower = b.data.map Char.toLower :=
          cmpCh_antisymm hab hba
        exact h1 (by rw [heq]; exact cmpCh_self _)
      · rw [if_neg h4]
        exact h3

theorem itemLe_trans :
    ∀ a b c : Item, itemLe a b = true → itemLe b c = true → itemLe a c = true := by
  intro a b c hab hbc
  unfold itemLe itemCmp at hab hbc ⊢
  rw [decide_eq_true_eq] at hab hbc
  rw [decide_eq_true_eq]
  cases ha : a.isDir <;> cases hb : b.isDir <;> cases hc : c.isDir <;>
      simp_all <;> first
        | omega
        | exact localeCompare_trans hab hbc

theorem itemLe_total : ∀ a b : Item, itemLe a b = true ∨ itemLe b a = true := by
  intro a b
  unfold itemLe itemCmp
  rw [decide_eq_true_eq, decide_eq_true_eq]
  cases ha : a.isDir <;> cases hb : b.isDir <;>
      simp_all <;> first
        | omega
        | exact localeCompare_total a.name b.name

/-! ### Listing lemmas -/

theorem buildItems_names (fs : FS) (dp up : String) :
    ∀ (files : List String) (items : List Item),
      buildItems fs dp up files = .ok items → items.map Item.name = files := by
  intro files
  induction files with
  | nil =>
    intro items h
    simp [buildItems] at h
    simp [← h]
  | cons f rest ih =>
    intro items h
    unfold buildItems at h
    cases hstat : fs.stat (pathJoin dp f) with
    | error e => rw [hstat] at h; simp at h
    | ok st =>
      rw [hstat] at h
      cases hrec : buildItems fs dp up rest with
      | error e => rw [hrec] at h; simp at h
      | ok its =>
        rw [hrec] at h
        simp at h
        rw [← h]
        simp [ih its hrec]

/-! ### Case-insensitivity of the extension lookup -/

theorem toLower_toLower (c : Char) :
    Char.toLower (Char.toLower c) = Char.toLower c := by
  unfold Char.toLower
  by_cases h : c.toNat ≥ 65 ∧ c.toNat ≤ 90
  · rw [if_pos h]
    obtain ⟨h1, h2⟩ := h
    generalize c.toNat = n at h1 h2
    interval_cases n <;> decide
  · rw [if_neg h, if_neg h]

theorem toLowerStr_idem (s : String) : toLowerStr (toLowerStr s) = toLowerStr s := by
  unfold toLowerStr
  refine congrArg String.mk ?_
  show (s.data.map Char.toLower).map Char.toLower = s.data.map Char.toLower
  induction s.data with
  | nil => rfl
  | cons c cs ih => simp [ih, toLower_toLower]

/-! ### Handler unfolding helpers -/

theorem handleRequest_decoded {fs : FS} {root url p : String}
    (hdec : decodeURIComponent (stripQuery url) = some p) :
    handleRequest fs root url = afterDecode fs root p := by
  unfold handleRequest
  rw [hdec]

theorem afterDecode_rejected {fs : FS} {root p : String}
    (hsub : jsIncludes p ".." = true) :
    afterDecode fs root p =
      .ok { status := 403, contentType := "text/plain",
            body := .text "403 Forbidden" } := by
  unfold afterDecode
  rw [hsub]
  rfl

/-! ### Claim theorems -/

/-- C1: for every request path that, after query stripping and URL-decoding,
contains a `..` path segment, the handler answers 403 text/plain — uniformly
in the filesystem and the root directory, so the rejection precedes the join
with the root and every filesystem call. -/
theorem C1_traversal_segment_rejected (url p : String)
    (hdec : decodeURIComponent (stripQuery url) = some p)
    (hseg : ['.', '.'] ∈ chSplit '/' p.data) :
    ∀ (fs : FS) (root : String),
      handleRequest fs root url =
        .ok { status := 403, contentType := "text/plain",
              body := .text "403 Forbidden" } := by
  intro fs root
  rw [handleRequest_decoded hdec]
  exact afterDecode_rejected (chHasSub_of_mem_chSplit hseg)

/-- C1 witness: `/a/%2e%2e/b?x=1` decodes to `/a/../b`, whose second segment
is `..`; the handler rejects it with 403 even though nothing exists. -/
theorem C1_witness :
    decodeURIComponent (stripQuery "/a/%2e%2e/b?x=1") = some "/a/../b" ∧
      ['.', '.'] ∈ chSplit '/' ("/a/../b" : String).data ∧
      handleRequest fsEmpty "/srv" "/a/%2e%2e/b?x=1" =
        .ok { status := 403, contentType := "text/plain",
              body := .text "403 Forbidden" } :=
  ⟨by decide, by decide,
    C1_traversal_segment_rejected "/a/%2e%2e/b?x=1" "/a/../b"
      (by decide) (by decide) fsEmpty "/srv"⟩

/-- C10: the guard is the substring test `urlPath.includes('..')`, so any
decoded path containing `..` anywhere — also inside a single file name —
draws 403, for every filesystem and root; an existing entry whose name
contains `..` is therefore unreachable. -/
theorem C10_dotdot_substring_rejected (url p : String)
    (hdec : decodeURIComponent (stripQuery url) = some p)
    (hsub : jsIncludes p ".." = true) :
    ∀ (fs : FS) (root : String),
      handleRequest fs root url =
        .ok { status := 403, contentType := "text/plain",
              body := .text "403 Forbidden" } := by
  intro fs root
  rw [handleRequest_decoded hdec]
  exact afterDecode_rejected hsub

/-- C10 witness: `/notes..txt` has `..` inside a plain file name; the file
exists on `fsDotNamed`, yet the handler answers 403, never serving it. -/
theorem C10_witness :
    decodeURIComponent (stripQuery "/notes..txt") = some "/notes..txt" ∧
      jsIncludes "/notes..txt" ".." = true ∧
      (fsDotNamed.stat "/srv/notes..txt" =
        .ok { isDirectory := false, size := 1, mtime := 0 }) ∧
      handleRequest fsDotNamed "/srv" "/notes..txt" =
        .ok { status := 403, contentType := "text/plain",
              body := .text "403 Forbidden" } :=
  ⟨by decide, by decide, by decide,
    C10_dotdot_substring_rejected "/notes..txt" "/notes..txt"
      (by decide) (by decide) fsDotNamed "/srv"⟩

/-- C2 counterexample: on a filesystem whose `stat` fails with `EACCES`
(permission denied), the handler answers 404 Not Found — not 500 — and its
response is identical to the one produced when the entry does not exist, so
the two conditions are not distinguishable by the caller. -/
theorem C2_counterexample :
    handleRequest fsPermDenied "/srv" "/secret.txt" =
        .ok { status := 404, contentType := "text/plain",
              body := .text "404 Not Found" } ∧
      handleRequest fsPermDenied "/srv" "/secret.txt" =
        handleRequest fsEmpty "/srv" "/secret.txt" := by
  exact ⟨by decide, by decide⟩

/-- C2 as amended: the `fs.stat` errback branch (line 259) answers 404 for
every stat failure, whatever its cause; 500 arises only from later read
failures. -/
theorem C2_stat_failure_yields_404 (fs : FS) (root url p : String) (e : FsErr)
    (hdec : decodeURIComponent (stripQuery url) = some p)
    (hno : jsIncludes p ".." = false)
    (hstat : fs.stat (pathJoin root p) = .error e) :
    handleRequest fs root url =
      .ok { status := 404, contentType := "text/plain",
            body := .text "404 Not Found" } := by
  rw [handleRequest_decoded hdec]
  unfold afterDecode
  simp only [hno, Bool.false_eq_true, if_false, hstat]

/-- C2 witness: the amended statement evaluated on the permission-denied
filesystem. -/
theorem C2_witness :
    decodeURIComponent (stripQuery "/secret.txt") = some "/secret.txt" ∧
      jsIncludes "/secret.txt" ".." = false ∧
      fsPermDenied.stat (pathJoin "/srv" "/secret.txt") = .error .eacces ∧
      handleRequest fsPermDenied "/srv" "/secret.txt" =
        .ok { status := 404, contentType := "text/plain",
              body := .text "404 Not Found" } :=
  ⟨by decide, by decide, by decide,
    C2_stat_failure_yields_404 fsPermDenied "/srv" "/secret.txt" "/secret.txt"
      .eacces (by decide) (by decide) (by decide)⟩

/-- C4 (code-bug evidence): two request inputs on which no 200/403/404/500
response is produced and an exception crosses the component boundary — the
URL `/%` makes `decodeURIComponent` throw an uncaught `URIError` (line 243
has no try/catch), and a directory whose `readdirSync` fails makes
`generateDirectoryListing` throw synchronously inside the `fs.stat` callback
(lines 97-98, 280). -/
theorem C4_uncaught_exception :
    handleRequest fsEmpty "/srv" "/%" = .error .uriError ∧
      handleRequest fsDirBoom "/srv" "/d" = .error (.fsThrow .eacces) := by
  exact ⟨by decide, by decide⟩

/-- C3: for every request the handler does not reject (its decoded path
passes the `..` guard), the path obtained by joining the root with the
decoded path — `filePath` of line 252, the only path later joined against or
handed to `fs` — is a descendant of (or equal to) the root directory. -/
theorem C3_resolved_path_inside_root (root url p : String)
    (habs : root.data.head? = some '/')
    (hdec : decodeURIComponent (stripQuery url) = some p)
    (hno : jsIncludes p ".." = false) :
    IsDescendant root (pathJoin root p) :=
  pathJoin_isDescendant root p habs hno

/-- C3 witness: the containment invariant evaluated at root `/srv` and
request path `/a/b.txt`. -/
theorem C3_witness :
    (("/srv" : String).data.head? = some '/') ∧
      decodeURIComponent (stripQuery "/a/b.txt") = some "/a/b.txt" ∧
      jsIncludes "/a/b.txt" ".." = false ∧
      IsDescendant "/srv" (pathJoin "/srv" "/a/b.txt") :=
  ⟨by decide, by decide, by decide,
    C3_resolved_path_inside_root "/srv" "/a/b.txt" "/a/b.txt"
      (by decide) (by decide) (by decide)⟩

/-- C5: a request resolving to an existing non-directory entry whose read
succeeds is served 200 with the table-driven content type (extension
lowercased before the lookup) and exactly the file's bytes as the body. -/
theorem C5_file_served (fs : FS) (root url p : String) (st : Stats)
    (data : List Nat)
    (hdec : decodeURIComponent (stripQuery url) = some p)
    (hno : jsIncludes p ".." = false)
    (hstat : fs.stat (pathJoin root p) = .ok st)
    (hfile : st.isDirectory = false)
    (hread : fs.readFile (pathJoin root p) = .ok data) :
    handleRequest fs root url =
      .ok { status := 200,
            contentType := contentTypeFor (pathExtname (pathJoin root p)),
            body := .bytes data } := by
  rw [handleRequest_decoded hdec]
  unfold afterDecode
  simp only [hno, Bool.false_eq_true, if_false, hstat, hfile, hread]

/-- C5 witness: `/a.TXT` on `fsOneFile` is served with its exact two bytes
and content type `text/plain`, the table entry for `.txt` found despite the
upper-case extension. -/
theorem C5_witness :
    handleRequest fsOneFile "/srv" "/a.TXT" =
        .ok { status := 200,
              contentType := contentTypeFor (pathExtname (pathJoin "/srv" "/a.TXT")),
              body := .bytes [104, 105] } ∧
      contentTypeFor (pathExtname (pathJoin "/srv" "/a.TXT")) = "text/plain" :=
  ⟨C5_file_served fsOneFile "/srv" "/a.TXT" "/a.TXT"
      { isDirectory := false, size := 2, mtime := 7 } [104, 105]
      (by decide) (by decide) (by decide) (by decide) (by decide),
    by decide⟩

/-- C6: a request resolving to a directory that contains an `index.html`
(`existsSync`, line 268) is answered from that file: 200 text/html with its
bytes when the read succeeds, and 500 — not 404 — when the read fails after
the existence check; no listing is generated on this branch. -/
theorem C6_index_served (fs : FS) (root url p : String) (st : Stats)
    (hdec : decodeURIComponent (stripQuery url) = some p)
    (hno : jsIncludes p ".." = false)
    (hstat : fs.stat (pathJoin root p) = .ok st)
    (hdir : st.isDirectory = true)
    (hidx : fs.existsSync (pathJoin (pathJoin root p) "index.html") = true) :
    handleRequest fs root url =
      match fs.readFile (pathJoin (pathJoin root p) "index.html") with
      | .ok data =>
          .ok { status := 200, contentType := "text/html", body := .bytes data }
      | .error _ =>
          .ok { status := 500, contentType := "text/plain",
                body := .text "500 Internal Server Error" } := by
  rw [handleRequest_decoded hdec]
  unfold afterDecode
  simp only [hno, Bool.false_eq_true, if_false, hstat, hdir, if_true, hidx]
  cases fs.readFile (pathJoin (pathJoin root p) "index.html") <;> rfl

/-- C6 witness: requesting `/d` and `/d/` on `fsWithIndex` both serve the
index file's bytes with content type text/html. -/
theorem C6_witness :
    handleRequest fsWithIndex "/srv" "/d" =
        .ok { status := 200, contentType := "text/html",
              body := .bytes [60, 104, 62] } ∧
      handleRequest fsWithIndex "/srv" "/d/" =
        .ok { status := 200, contentType := "text/html",
              body := .bytes [60, 104, 62] } :=
  ⟨(C6_index_served fsWithIndex "/srv" "/d" "/d"
      { isDirectory := true, size := 0, mtime := 0 }
      (by decide) (by decide) (by decide) (by decide) (by decide)).trans (by decide),
   (C6_index_served fsWithIndex "/srv" "/d/" "/d/"
      { isDirectory := true, size := 0, mtime := 0 }
      (by decide) (by decide) (by decide) (by decide) (by decide)).trans (by decide)⟩

theorem countP_itemRows (l : List Item) :
    List.countP RowEntry.isParent (l.map RowEntry.itemRow) = 0 := by
  induction l with
  | nil => rfl
  | cons x xs ih => simp [List.countP_cons, RowEntry.isParent, ih]

/-- C7: a request resolving to a directory without an `index.html` is
answered with the listing page whose rows are exactly one item per readdir
child (their names are a permutation of the readdir result), sorted by the
comparator of lines 112-116: directories strictly before files, and names
ascending within each group (`itemRel` holds along the row list). -/
theorem C7_listing_sorted (fs : FS) (root url p : String) (st : Stats)
    (files : List String) (items : List Item)
    (hdec : decodeURIComponent (stripQuery url) = some p)
    (hno : jsIncludes p ".." = false)
    (hstat : fs.stat (pathJoin root p) = .ok st)
    (hdir : st.isDirectory = true)
    (hidx : fs.existsSync (pathJoin (pathJoin root p) "index.html") = false)
    (hrd : fs.readdirSync (pathJoin root p) = .ok files)
    (hbuild : buildItems fs (pathJoin root p) p files = .ok items) :
    handleRequest fs root url =
      .ok { status := 200, contentType := "text/html",
            body := .page
              { urlPath := p, dirPath := pathJoin root p,
                parent := if p ≠ "/" then some (pathDirname p) else none,
                rows := List.insertionSort itemRel items } } ∧
      ((List.insertionSort itemRel items).map Item.name).Perm files ∧
      List.Sorted itemRel (List.insertionSort itemRel items) := by
  refine ⟨?_, ?_, ?_⟩
  · rw [handleRequest_decoded hdec]
    unfold afterDecode generateDirectoryListing
    simp only [hno, Bool.false_eq_true, if_false, hstat, hdir, if_true, hidx,
      hrd, hbuild]
  · have hperm := (List.perm_insertionSort itemRel items).map Item.name
    rw [buildItems_names fs (pathJoin root p) p files items hbuild] at hperm
    exact hperm
  · exact @List.sorted_insertionSort Item itemRel _
      ⟨fun a b => itemLe_total a b⟩ ⟨fun a b c => itemLe_trans a b c⟩ items

/-- C7 witness: `/d` on `fsListDir` holds the child file `banana.txt` and the
child directory `Apple`; the listing pairs every child with one row and the
sort puts the directory `Apple` before the file `banana.txt`. -/
theorem C7_witness :
    handleRequest fsListDir "/srv" "/d" =
        .ok { status := 200, contentType := "text/html",
              body := .page
                { urlPath := "/d", dirPath := pathJoin "/srv" "/d",
                  parent := if ("/d" : String) ≠ "/" then some (pathDirname "/d") else none,
                  rows := List.insertionSort itemRel
                    [{ name := "banana.txt", href := "/d/banana.txt",
                       isDir := false, size := "3 B", modified := 5 },
                     { name := "Apple", href := "/d/Apple",
                       isDir := true, size := "-", modified := 6 }] } } ∧
      ((List.insertionSort itemRel
          [{ name := "banana.txt", href := "/d/banana.txt",
             isDir := false, size := "3 B", modified := 5 },
           { name := "Apple", href := "/d/Apple",
             isDir := true, size := "-", modified := 6 }]).map Item.name).Perm
        ["banana.txt", "Apple"] ∧
      List.insertionSort itemRel
          [{ name := "banana.txt", href := "/d/banana.txt",
             isDir := false, size := "3 B", modified := 5 },
           { name := "Apple", href := "/d/Apple",
             isDir := true, size := "-", modified := 6 }] =
        [{ name := "Apple", href := "/d/Apple",
           isDir := true, size := "-", modified := 6 },
         { name := "banana.txt", href := "/d/banana.txt",
           isDir := false, size := "3 B", modified := 5 }] := by
  have h := C7_listing_sorted fsListDir "/srv" "/d" "/d"
    { isDirectory := true, size := 0, mtime := 0 }
    ["banana.txt", "Apple"]
    [{ name := "banana.txt", href := "/d/banana.txt",
       isDir := false, size := "3 B", modified := 5 },
     { name := "Apple", href := "/d/Apple",
       isDir := true, size := "-", modified := 6 }]
    (by decide) (by decide) (by decide) (by decide) (by decide)
    (by decide) (by decide)
  exact ⟨h.1, h.2.1, by decide⟩

/-- C8: a generated listing for the root request path has no synthetic
parent row, and one for any other request path has exactly one, placed
before every child row, linking to `path.dirname` of the request path. -/
theorem C8_parent_entry (fs : FS) (dp up : String) (page : ListingPage)
    (hgen : generateDirectoryListing fs dp up = .ok page) :
    page.parent = (if up = "/" then none else some (pathDirname up)) ∧
      tbodyRows page =
        (if up = "/" then ([] : List RowEntry)
         else [RowEntry.parentRow (pathDirname up)]) ++
          page.rows.map RowEntry.itemRow ∧
      List.countP RowEntry.isParent (tbodyRows page) =
        (if up = "/" then 0 else 1) := by
  unfold generateDirectoryListing at hgen
  cases hrd : fs.readdirSync dp with
  | error e => simp only [hrd] at hgen; exact Except.noConfusion hgen
  | ok files =>
    simp only [hrd] at hgen
    cases hbuild : buildItems fs dp up files with
    | error e => simp only [hbuild] at hgen; exact Except.noConfusion hgen
    | ok items =>
      simp only [hbuild, Except.ok.injEq] at hgen
      subst hgen
      refine ⟨?_, ?_, ?_⟩
      · by_cases hup : up = "/" <;> simp [hup]
      · by_cases hup : up = "/" <;> simp [tbodyRows, hup]
      · by_cases hup : up = "/" <;>
          simp [tbodyRows, hup, List.countP_cons, RowEntry.isParent]

/-- C8 witness: the listing of `/srv/d` requested as `/d` has parent link
`/` (the dirname of `/d`), exactly one parent row, placed first. -/
theorem C8_witness :
    ({ urlPath := "/d", dirPath := "/srv/d",
       parent := some "/",
       rows := [{ name := "Apple", href := "/d/Apple",
                  isDir := true, size := "-", modified := 6 },
                { name := "banana.txt", href := "/d/banana.txt",
                  isDir := false, size := "3 B", modified := 5 }] } : ListingPage).parent =
        (if ("/d" : String) = "/" then none else some (pathDirname "/d")) ∧
      tbodyRows
          { urlPath := "/d", dirPath := "/srv/d",
            parent := some "/",
            rows := [{ name := "Apple", href := "/d/Apple",
                       isDir := true, size := "-", modified := 6 },
                     { name := "banana.txt", href := "/d/banana.txt",
                       isDir := false, size := "3 B", modified := 5 }] } =
        (if ("/d" : String) = "/" then ([] : List RowEntry)
         else [RowEntry.parentRow (pathDirname "/d")]) ++
          List.map RowEntry.itemRow
            [{ name := "Apple", href := "/d/Apple",
               isDir := true, size := "-", modified := 6 },
             { name := "banana.txt", href := "/d/banana.txt",
               isDir := false, size := "3 B", modified := 5 }] ∧
      List.countP RowEntry.isParent
          (tbodyRows
            { urlPath := "/d", dirPath := "/srv/d",
              parent := some "/",
              rows := [{ name := "Apple", href := "/d/Apple",
                         isDir := true, size := "-", modified := 6 },
                       { name := "banana.txt", href := "/d/banana.txt",
                         isDir := false, size := "3 B", modified := 5 }] }) =
        (if ("/d" : String) = "/" then 0 else 1) :=
  C8_parent_entry fsListDir "/srv/d" "/d"
    { urlPath := "/d", dirPath := "/srv/d",
      parent := some "/",
      rows := [{ name := "Apple", href := "/d/Apple",
                 isDir := true, size := "-", modified := 6 },
               { name := "banana.txt", href := "/d/banana.txt",
                 isDir := false, size := "3 B", modified := 5 }] }
    (by decide)

/-- C9: content-type classification is a total function of the extension:
every table key maps to its table value, the lookup is insensitive to case
(lowercasing the extension does not change the result), and any extension
whose lowercase form is absent from the table maps to
application/octet-stream. -/
theorem C9_mime_total_function :
    (∀ pr ∈ MIME_TYPES, contentTypeFor pr.1 = pr.2) ∧
      (∀ ext : String, contentTypeFor ext = contentTypeFor (toLowerStr ext)) ∧
      (∀ ext : String, MIME_TYPES.lookup (toLowerStr ext) = none →
        contentTypeFor ext = "application/octet-stream") := by
  refine ⟨by decide, ?_, ?_⟩
  · intro ext
    unfold contentTypeFor
    rw [toLowerStr_idem]
  · intro ext h
    unfold contentTypeFor
    rw [h]
    rfl

/-- C9 witness: `.JPG` classifies as `image/jpeg` like `.jpg`, and the
unknown `.xyz` falls back to `application/octet-stream`. -/
theorem C9_witness :
    contentTypeFor ".JPG" = "image/jpeg" ∧
      contentTypeFor ".xyz" = "application/octet-stream" := by
  constructor
  · have h1 := C9_mime_total_function.2.1 ".JPG"
    have h2 : toLowerStr ".JPG" = ".jpg" := by decide
    rw [h1, h2]
    exact C9_mime_total_function.1 (".jpg", "image/jpeg") (by decide)
  · exact C9_mime_total_function.2.2 ".xyz" (by decide)

end ServeHere
